import Mathlib

/-!
Verification of the red-black TreeSet engine of shoenig/go-set.

The embedding below is a functional translation of the Go sources
(`treeset.go`, and the full engine including `delete` that the claims
reference).  Conventions:

* A Go `*node[T]` pointer structure is modelled by the inductive `RNode`:
  `RNode.nil` is the nil pointer, `RNode.node element color left right`
  mirrors the Go struct `node{element, color, parent, left, right}`.
  The `parent` back pointer is not stored: the Go fixup routines walk
  strictly upward through parent pointers, which a functional embedding
  represents by a zipper path (`TPath`) of ancestor frames.  Each `TFrame`
  records, for one ancestor, on which side the focused subtree hangs
  (`dir`, the information Go recovers by comparing `n == parent.left`),
  the element and color of the ancestor, and the subtree on the other side.

* Go `color` is `Bool` exactly as in the source: `red = false`,
  `black = true`.

* A Go panic (nil pointer dereference, or the explicit `panic(...)`
  calls) is modelled by `Except.error` with a `Fault` value:
  `Fault.empty` for the `panic("min/max: tree is empty")` calls,
  `Fault.nilDeref` for a field access on a nil pointer,
  `Fault.rotateLeftNil` / `Fault.rotateRightNil` for the dereference of
  the right / left child inside `rotateLeft` / `rotateRight`.

* The transient `marker` node used by `delete` is a black childless
  sentinel spliced in when a black leaf is removed, inspected only
  through its position (never through its fields), and detached before
  `delete` returns.  In the zipper embedding it is exactly a focus on
  the empty subtree `RNode.nil` at the spliced position, so the final
  detachment is a no-op (plugging `nil` into the path).

* The Go `fmt.Println("locate:", n)` debug statement in `delete` is pure
  output and has no effect on the data structure; it is not modelled.

* The comparator is fixed at construction time in Go.  It is passed as an
  explicit function argument `cmp : T -> T -> Int` here.  The repository
  ships one canonical comparator, `Compare` (for ordinal builtin types),
  translated below for any linear order; for a lawful comparator
  `Compare x y = 0` iff `x = y`, which is the "comparator equality" the
  specification speaks about.
-/

/-- Side on which a focused subtree hangs below its parent.  Go recovers
this information with pointer comparisons (`n == parent.left`). -/
inductive Side where
  | left : Side
  | right : Side
  deriving DecidableEq, Repr

/-- Functional image of the Go `node[T]` pointer structure.  `RNode.nil` is
the nil pointer; colors are `Bool` with `red = false`, `black = true` as in
the Go source. -/
inductive RNode (T : Type) where
  | nil : RNode T
  | node (element : T) (color : Bool) (left : RNode T) (right : RNode T) : RNode T
  deriving DecidableEq, Repr

/-- One ancestor frame of the zipper that replaces the Go parent pointers:
the side the focus hangs on, the element and color of the ancestor, and
the subtree on the opposite side. -/
structure TFrame (T : Type) where
  dir : Side
  element : T
  color : Bool
  other : RNode T
  deriving DecidableEq, Repr

/-- The ancestor path from a focused position up to the root (innermost
ancestor first).  This is the information carried by the chain of Go
`parent` pointers. -/
abbrev TPath (T : Type) := List (TFrame T)

/-- Faults: the ways the Go engine can panic.  `empty` is the explicit
`panic("min/max: tree is empty")`; `nilDeref` is a field access on a nil
pointer; `rotateLeftNil`/`rotateRightNil` are the dereference of the
relevant child inside `rotateLeft`/`rotateRight`; `badParent` is the
`panic("node is not child of its parent")` family in `replaceChild`,
`siblingOf` and `uncleOf`. -/
inductive Fault where
  | empty : Fault
  | nilDeref : Fault
  | rotateLeftNil : Fault
  | rotateRightNil : Fault
  | badParent : Fault
  deriving DecidableEq, Repr

/-- Rebuild the node of one ancestor frame around a focused subtree. -/
def assemble {T : Type} (f : TFrame T) (focus : RNode T) : RNode T :=
  match f.dir with
  | Side.left => RNode.node f.element f.color focus f.other
  | Side.right => RNode.node f.element f.color f.other focus

/-- Rebuild the whole tree from a focused subtree and its ancestor path. -/
def plug {T : Type} (p : TPath T) (focus : RNode T) : RNode T :=
  match p with
  | [] => focus
  | f :: rest => plug rest (assemble f focus)

/-- Go `func (n *node[T]) black() bool { return n == nil || n.color == black }`
(the nil-safe color test of the engine with deletion). -/
def isBlackN {T : Type} : RNode T → Bool
  | RNode.nil => true
  | RNode.node _ c _ _ => c

/-- Go `func (n *node[T]) red() bool { return n != nil && n.color == red }`. -/
def isRedN {T : Type} : RNode T → Bool
  | RNode.nil => false
  | RNode.node _ c _ _ => !c

/-- Go `func Compare[C builtin](x, y C) int`: `-1` when `x < y`, `1` when
`x > y`, `0` otherwise.  Translated for an arbitrary linear order. -/
def Compare {T : Type} [LinearOrder T] (x y : T) : Int :=
  if x < y then -1 else if y < x then 1 else 0

/-- Go `rotateLeft`: the right child becomes the subtree root.  `none`
models the nil dereference (`rightChild.left`) Go performs when the right
child is nil.  Rotation relinks only; no color changes. -/
def rotateLeftN {T : Type} : RNode T → Option (RNode T)
  | RNode.node e c l (RNode.node re rc rl rr) =>
      some (RNode.node re rc (RNode.node e c l rl) rr)
  | _ => none

/-- Go `rotateRight`: the left child becomes the subtree root.  `none`
models the nil dereference (`leftChild.right`) when the left child is nil. -/
def rotateRightN {T : Type} : RNode T → Option (RNode T)
  | RNode.node e c (RNode.node le lc ll lr) r =>
      some (RNode.node le lc ll (RNode.node e c lr r))
  | _ => none

/-- The descent loop of Go `insert`: walk from the root recording ancestor
frames; `some p` is the attachment point for the fresh node (a nil leaf
with path `p`), `none` means an element comparing equal is already in the
tree (Go returns `false` without modifying anything). -/
def descend {T : Type} (cmp : T → T → Int) (x : T) : RNode T → TPath T → Option (TPath T)
  | RNode.nil, p => some p
  | RNode.node e c l r, p =>
      let v := cmp x e
      if v < 0 then descend cmp x l (⟨Side.left, e, c, r⟩ :: p)
      else if 0 < v then descend cmp x r (⟨Side.right, e, c, l⟩ :: p)
      else none

/-- One level of Go `rebalanceInsertion` when both a (red) parent frame
`f` and a grandparent frame `g` exist.  Returns `Sum.inr` with the new
focus when the red-uncle case 3 recurses on the grandparent, and
`Sum.inl` with the finished subtree (at the level of the grandparent)
for the terminal rotation cases 4a/5a and 4b/5b.  In the rotation cases
the composite effect of `rotateLeft`/`rotateRight` followed by the two
recolorings (`parent.color = black`, `grandparent.color = red`) is
written as one tree; the equations `rotateLeftN_node`/`rotateRightN_node`
in the theorem section record the relinking those rotations perform. -/
def insStep {T : Type} (focus : RNode T) (f g : TFrame T) :
    Except Fault (RNode T ⊕ RNode T) :=
  match g.other with
  | RNode.node ue false ul ur =>
      -- case 3: the uncle is red: parent black, grandparent red,
      -- uncle black, recurse upward on the grandparent.
      Except.ok (Sum.inr
        (assemble ⟨g.dir, g.element, false, RNode.node ue true ul ur⟩
          (assemble ⟨f.dir, f.element, true, f.other⟩ focus)))
  | _ =>
      -- the uncle is black or absent
      match g.dir with
      | Side.left =>
          -- parent == grandparent.left
          match f.dir with
          | Side.right =>
              -- case 4a: rotateLeft(parent) -- dereferences n, the right
              -- child of the parent -- then case 5a: rotateRight(grandparent),
              -- recolor n black and the grandparent red.
              match focus with
              | RNode.nil => Except.error Fault.rotateLeftNil
              | RNode.node ne _ nl nr =>
                  Except.ok (Sum.inl
                    (RNode.node ne true
                      (RNode.node f.element f.color f.other nl)
                      (RNode.node g.element false nr g.other)))
          | Side.left =>
              -- case 5a only: rotateRight(grandparent), recolor the parent
              -- black and the grandparent red.
              Except.ok (Sum.inl
                (RNode.node f.element true focus
                  (RNode.node g.element false f.other g.other)))
      | Side.right =>
          -- parent == grandparent.right
          match f.dir with
          | Side.left =>
              -- case 4b: rotateRight(parent) -- dereferences n, the left
              -- child of the parent -- then case 5b: rotateLeft(grandparent).
              match focus with
              | RNode.nil => Except.error Fault.rotateRightNil
              | RNode.node ne _ nl nr =>
                  Except.ok (Sum.inl
                    (RNode.node ne true
                      (RNode.node g.element false g.other nl)
                      (RNode.node f.element f.color nr f.other)))
          | Side.right =>
              -- case 5b only: rotateLeft(grandparent), recolor the parent
              -- black and the grandparent red.
              Except.ok (Sum.inl
                (RNode.node f.element true
                  (RNode.node g.element false g.other f.other)
                  focus))

/-- Go `rebalanceInsertion`, in zipper form.  The focused subtree plays the
role of `n`; the path plays the role of the parent pointers.  Cases follow
the Go source comments: case 1 (no parent; the recoloring `n.color = black`
dereferences `n`), parent black (nothing to do), case 2 (no grandparent:
recolor the parent, which is the root, black), and otherwise the per-level
analysis `insStep` (case 3 recursing upward, cases 4a/5a/4b/5b terminal). -/
def rebalanceInsertion {T : Type} (focus : RNode T) : TPath T → Except Fault (RNode T)
  | [] =>
      match focus with
      | RNode.nil => Except.error Fault.nilDeref
      | RNode.node e _ l r => Except.ok (RNode.node e true l r)
  | f :: rest =>
      if f.color then
        Except.ok (plug rest (assemble f focus))
      else
        match rest with
        | [] => Except.ok (assemble ⟨f.dir, f.element, true, f.other⟩ focus)
        | g :: rest2 =>
            match insStep focus f g with
            | Except.error e => Except.error e
            | Except.ok (Sum.inl sub) => Except.ok (plug rest2 sub)
            | Except.ok (Sum.inr newFocus) => rebalanceInsertion newFocus rest2

/-- The TreeSet facade state: root and stored size.  The comparator that Go
stores alongside is passed explicitly to each operation; the `marker` field
of the Go struct is the deletion sentinel, represented positionally (see
the module comment). -/
structure TreeSet (T : Type) where
  root : RNode T
  size : Int
  deriving DecidableEq, Repr

/-- Go `NewTreeSet`: empty root, size zero. -/
def newTreeSet {T : Type} : TreeSet T := ⟨RNode.nil, 0⟩

/-- Go `Insert`/`insert`: descend to the attachment point (or detect a
comparator-equal element and return `false` leaving the set untouched),
attach the fresh red node, rebalance, increment the size. -/
def insertT {T : Type} (cmp : T → T → Int) (t : TreeSet T) (x : T) :
    Except Fault (Bool × TreeSet T) :=
  match descend cmp x t.root [] with
  | none => Except.ok (false, t)
  | some p =>
      (rebalanceInsertion (RNode.node x false RNode.nil RNode.nil) p).map
        (fun root2 => (true, ⟨root2, t.size + 1⟩))

/-- In-order traversal, Go `infix` (the traversal behind `Slice`). -/
def inorder {T : Type} : RNode T → List T
  | RNode.nil => []
  | RNode.node e _ l r => inorder l ++ e :: inorder r

/-- Go `Slice`: the elements in comparator order. -/
def sliceT {T : Type} (t : TreeSet T) : List T := inorder t.root

/-- Go `Size`. -/
def sizeT {T : Type} (t : TreeSet T) : Int := t.size

/-- Go `Empty`: `Size() == 0`. -/
def emptyT {T : Type} (t : TreeSet T) : Bool := t.size == 0

/-- Go `locate`, in zipper form: the iterative search loop, recording the
ancestor frames of the visited nodes.  Go compares
`cmp := s.compare(n, target-node)` (node element first) and goes right on
`cmp < 0`, left on `cmp > 0`; `some (p, e, c, l, r)` is the located node
with its path, `none` is the nil result (element absent). -/
def locateZ {T : Type} (cmp : T → T → Int) (x : T) :
    RNode T → TPath T → Option (TPath T × T × Bool × RNode T × RNode T)
  | RNode.nil, _ => none
  | RNode.node e c l r, p =>
      let v := cmp e x
      if v < 0 then locateZ cmp x r (⟨Side.right, e, c, l⟩ :: p)
      else if 0 < v then locateZ cmp x l (⟨Side.left, e, c, r⟩ :: p)
      else some (p, e, c, l, r)

/-- Go `min`: iterate to the leftmost node; the callers use its element and
color.  The error arm is the field access `n.left` on a nil argument. -/
def minGo {T : Type} : RNode T → Except Fault (T × Bool)
  | RNode.nil => Except.error Fault.nilDeref
  | RNode.node e c RNode.nil _ => Except.ok (e, c)
  | RNode.node _ _ (RNode.node le lc ll lr) _ => minGo (RNode.node le lc ll lr)

/-- Go `max`: iterate to the rightmost node. -/
def maxGo {T : Type} : RNode T → Except Fault (T × Bool)
  | RNode.nil => Except.error Fault.nilDeref
  | RNode.node e c _ RNode.nil => Except.ok (e, c)
  | RNode.node _ _ _ (RNode.node re rc rl rr) => maxGo (RNode.node re rc rl rr)

/-- Go `Min`: `panic("min: tree is empty")` on a nil root, otherwise the
element of the leftmost node. -/
def MinT {T : Type} (t : TreeSet T) : Except Fault T :=
  match t.root with
  | RNode.nil => Except.error Fault.empty
  | RNode.node e c l r => (minGo (RNode.node e c l r)).map Prod.fst

/-- Go `Max`: `panic("max: tree is empty")` on a nil root, otherwise the
element of the rightmost node. -/
def MaxT {T : Type} (t : TreeSet T) : Except Fault T :=
  match t.root with
  | RNode.nil => Except.error Fault.empty
  | RNode.node e c l r => (maxGo (RNode.node e c l r)).map Prod.fst

/-- Go `fixBlackSibling`, in zipper form: the focus plays the role of `n`,
the frame `f` is its parent (so `f.other` is the sibling).  Faithful to
every line: the branch `isLeftChild && sibling.right.black()` first writes
`sibling.left.color = black` (a nil dereference when that child is nil),
recolors the sibling red and rotates right at the sibling; then the shared
tail transfers the parent color to the (possibly new) sibling, blackens
the parent and the outer nephew, and rotates at the parent toward `n`.
The result is the rebuilt subtree at the level of `f`.  The error arms are
exactly the nil dereferences Go would perform. -/
def fixBlackSibling {T : Type} (focus : RNode T) (f : TFrame T) : Except Fault (RNode T) :=
  match f.dir with
  | Side.left =>
      -- isLeftChild = true; sibling = f.other on the right
      match f.other with
      | RNode.nil => Except.error Fault.nilDeref  -- sibling.right on nil sibling
      | RNode.node we _wc wl wr =>
          if isBlackN wr then
            -- inner red nephew: sibling.left.color = black (deref), sibling red,
            -- rotateRight(sibling); the new sibling is n.parent.right
            match wl with
            | RNode.nil => Except.error Fault.nilDeref
            | RNode.node le _ ll lr =>
                -- new sibling after the rotation:
                -- node le black ll (node we red lr wr); its right child is the
                -- non-nil node we, so the tail performs no nil dereference:
                -- final shape after sibling.color = parent color, parent black,
                -- sibling.right.color = black, rotateLeft(parent):
                Except.ok (RNode.node le f.color
                  (RNode.node f.element true focus ll)
                  (RNode.node we true lr wr))
          else
            -- outer nephew already red: tail only; sibling.right.color = black
            -- dereferences the right nephew
            match wr with
            | RNode.nil => Except.error Fault.nilDeref
            | RNode.node re _ rl rr =>
                Except.ok (RNode.node we f.color
                  (RNode.node f.element true focus wl)
                  (RNode.node re true rl rr))
  | Side.right =>
      -- isLeftChild = false; sibling = f.other on the left
      match f.other with
      | RNode.nil => Except.error Fault.nilDeref
      | RNode.node we _wc wl wr =>
          if isBlackN wl then
            -- inner red nephew: sibling.right.color = black (deref), sibling red,
            -- rotateLeft(sibling); the new sibling is n.parent.left
            match wr with
            | RNode.nil => Except.error Fault.nilDeref
            | RNode.node re _ rl rr =>
                Except.ok (RNode.node re f.color
                  (RNode.node we true wl rl)
                  (RNode.node f.element true rr focus))
          else
            match wl with
            | RNode.nil => Except.error Fault.nilDeref
            | RNode.node le _ ll lr =>
                Except.ok (RNode.node we f.color
                  (RNode.node le true ll lr)
                  (RNode.node f.element true wr focus))

/-- One level of Go `rebalanceDeletion` when the focus has a parent frame
`f` (so `f.other` is the sibling).  Returns `Sum.inr` with the rebuilt
parent subtree when the black-sibling/black-children/black-parent case
recurses on the parent, and `Sum.inl` with the finished subtree (at the
level of `f`) for the terminal cases.  Cases follow the Go source: red
sibling (`fixRedSibling`: sibling black, parent red, rotate at the parent
toward `n`, re-fetch the sibling -- after which the parent is red by that
very assignment, so the recursive sub-case is statically dead and the
continuation is inlined with that fact); black sibling with two black
children (recolor, then either stop at a red parent or recurse on the
parent); black sibling with a red child (`fixBlackSibling`).  A nil
sibling is the dereference `sibling.left` on a nil pointer (the nil-safe
`red()` returns false first), hence a fault. -/
def delStep {T : Type} (focus : RNode T) (f : TFrame T) :
    Except Fault (RNode T ⊕ RNode T) :=
  match f.other with
  | RNode.nil => Except.error Fault.nilDeref
  | RNode.node we wc wl wr =>
      if wc then
        -- sibling is black
        if isBlackN wl && isBlackN wr then
          if f.color = false then
            -- black sibling, two black children, red parent: recolor and stop
            Except.ok (Sum.inl
              (assemble ⟨f.dir, f.element, true, RNode.node we false wl wr⟩ focus))
          else
            -- black parent: recolor the sibling red, recurse on the parent
            Except.ok (Sum.inr
              (assemble ⟨f.dir, f.element, f.color, RNode.node we false wl wr⟩ focus))
        else
          (fixBlackSibling focus ⟨f.dir, f.element, f.color, RNode.node we wc wl wr⟩).map
            Sum.inl
      else
        -- fixRedSibling: sibling black, parent red, rotate at the parent
        -- toward n; the focus keeps its side below the old parent, which
        -- hangs on that same side below the old sibling; the near
        -- grandchild becomes the new sibling, the far one stays outside.
        let near := match f.dir with | Side.left => wl | Side.right => wr
        let far := match f.dir with | Side.left => wr | Side.right => wl
        let f2 : TFrame T := ⟨f.dir, we, true, far⟩
        -- re-fetched sibling = near; the parent is now red, so of the two
        -- sub-cases only the terminal ones below are reachable.
        match near with
        | RNode.nil => Except.error Fault.nilDeref
        | RNode.node ve vc vl vr =>
            if isBlackN vl && isBlackN vr then
              -- recolor the sibling red and the (red) parent black
              Except.ok (Sum.inl (assemble f2
                (assemble ⟨f.dir, f.element, true, RNode.node ve false vl vr⟩ focus)))
            else
              (fixBlackSibling focus ⟨f.dir, f.element, false, RNode.node ve vc vl vr⟩).map
                (fun sub => Sum.inl (assemble f2 sub))

/-- Go `rebalanceDeletion`, in zipper form.  The focus is the node the
fixup walks from (`moved`); a focus of `RNode.nil` is the transient marker
node (see the module comment).  Base case: n is the root, recolor it black
(the marker is already black, and is detached afterwards, leaving the
empty tree); otherwise the per-level analysis `delStep`, recursing on the
parent when it asks to. -/
def rebalanceDeletion {T : Type} (focus : RNode T) : TPath T → Except Fault (RNode T)
  | [] =>
      match focus with
      | RNode.nil => Except.ok RNode.nil
      | RNode.node e _ l r => Except.ok (RNode.node e true l r)
  | f :: rest =>
      match delStep focus f with
      | Except.error e => Except.error e
      | Except.ok (Sum.inl sub) => Except.ok (plug rest sub)
      | Except.ok (Sum.inr sub) => rebalanceDeletion sub rest

/-- Tail of Go `delete` after the splice: if the color of the deleted node
was black, run the deletion fixup from the moved node (a nil focus is the
marker), then detach the marker (a no-op positionally); finally decrement
the size and report the modification. -/
def finishDelete {T : Type} (t : TreeSet T) (p : TPath T) (moved : RNode T)
    (deleted : Bool) : Except Fault (Bool × TreeSet T) :=
  if deleted then
    (rebalanceDeletion moved p).map (fun root2 => (true, ⟨root2, t.size - 1⟩))
  else
    Except.ok (true, ⟨plug p moved, t.size - 1⟩)

/-- Go `delete` (the body of `Remove`).  Locate the node; absent means
`false` with the set untouched.  A node with at most one child is spliced
out by `delete01` (a black childless node leaves the marker, i.e. a nil
focus).  For a node with two children the Go source finds the in-order
successor (minimum of the right subtree), copies its element into the node
-- and then calls `delete01(n)` on the node itself (not on the successor),
which, because the left child is non-nil, splices out the node and promotes
its left child, discarding the entire right subtree; the recorded deleted
color is the successor color.  This is translated verbatim. -/
def deleteT {T : Type} (cmp : T → T → Int) (t : TreeSet T) (x : T) :
    Except Fault (Bool × TreeSet T) :=
  match locateZ cmp x t.root [] with
  | none => Except.ok (false, t)
  | some (p, _, c, l, r) =>
      match l, r with
      | RNode.node le lc ll lr, RNode.node re rc rl rr =>
          -- two children: successor := s.min(n.right); n.element = successor.element;
          -- moved = s.delete01(n); deleted = successor.color
          do
            let (_, sc) ← minGo (RNode.node re rc rl rr)
            -- delete01 on the node: the left child is non-nil, so the node is
            -- replaced by its left child (the overwritten element and the
            -- whole right subtree drop out of the tree)
            finishDelete t p (RNode.node le lc ll lr) sc
      | RNode.node le lc ll lr, RNode.nil =>
          -- delete01: only a left child; replace the node by it
          finishDelete t p (RNode.node le lc ll lr) c
      | RNode.nil, RNode.node re rc rl rr =>
          -- delete01: only a right child; replace the node by it
          finishDelete t p (RNode.node re rc rl rr) c
      | RNode.nil, RNode.nil =>
          -- delete01: childless; a black node is replaced by the marker
          -- (nil focus, fixup runs), a red one is simply removed
          finishDelete t p RNode.nil c

/-- One public mutating call. -/
inductive Op (T : Type) where
  | ins (x : T) : Op T
  | rem (x : T) : Op T
  deriving DecidableEq, Repr

/-- Run a sequence of public mutating calls, propagating faults. -/
def runOps {T : Type} (cmp : T → T → Int) : TreeSet T → List (Op T) → Except Fault (TreeSet T)
  | t, [] => Except.ok t
  | t, Op.ins x :: ops =>
      match insertT cmp t x with
      | Except.error f => Except.error f
      | Except.ok (_, t2) => runOps cmp t2 ops
  | t, Op.rem x :: ops =>
      match deleteT cmp t x with
      | Except.error f => Except.error f
      | Except.ok (_, t2) => runOps cmp t2 ops

/-- Run a sequence of public mutating calls from a freshly constructed set. -/
def runFrom {T : Type} (cmp : T → T → Int) (ops : List (Op T)) : Except Fault (TreeSet T) :=
  runOps cmp newTreeSet ops

/-- Red-black invariant 4 of the source comments: a red node has no red
child (nil children are black). -/
def noRedRed {T : Type} : RNode T → Bool
  | RNode.nil => true
  | RNode.node _ c l r =>
      (c || (isBlackN l && isBlackN r)) && noRedRed l && noRedRed r

/-- Red-black invariant 5 of the source comments: the number of black nodes
is the same on every path from a node down to an absent descendant;
`some h` is that common count, `none` means the invariant fails. -/
def blackHeight {T : Type} : RNode T → Option Nat
  | RNode.nil => some 0
  | RNode.node _ c l r =>
      match blackHeight l, blackHeight r with
      | some a, some b =>
          if a = b then some (a + (if c then 1 else 0)) else none
      | _, _ => none

/-- All elements of a subtree satisfy a boolean predicate. -/
def allB {T : Type} (p : T → Bool) : RNode T → Bool
  | RNode.nil => true
  | RNode.node e _ l r => p e && allB p l && allB p r

/-- Binary-search-tree order with respect to the canonical comparator: at
every node, everything on the left is strictly smaller and everything on
the right strictly larger.  This is the representation invariant behind
the search loops. -/
def orderedB {T : Type} [LinearOrder T] : RNode T → Bool
  | RNode.nil => true
  | RNode.node e _ l r =>
      allB (fun y => decide (y < e)) l && allB (fun y => decide (e < y)) r &&
        orderedB l && orderedB r

/-- A concrete well-formed sample set {1, 2, 3} used by the witnesses. -/
def sampleT : TreeSet Int :=
  ⟨RNode.node 2 true (RNode.node 1 false RNode.nil RNode.nil)
    (RNode.node 3 false RNode.nil RNode.nil), 3⟩

theorem rotateLeftN_node {T : Type} (e re : T) (c rc : Bool) (l rl rr : RNode T) :
    rotateLeftN (RNode.node e c l (RNode.node re rc rl rr)) =
      some (RNode.node re rc (RNode.node e c l rl) rr) := rfl

theorem rotateRightN_node {T : Type} (e le : T) (c lc : Bool) (ll lr r : RNode T) :
    rotateRightN (RNode.node e c (RNode.node le lc ll lr) r) =
      some (RNode.node le lc ll (RNode.node e c lr r)) := rfl


theorem assemble_ne_nil {T : Type} (f : TFrame T) (focus : RNode T) :
    assemble f focus ≠ RNode.nil := by
  cases hd : f.dir <;> simp [assemble, hd]

theorem insStep_ok {T : Type} (focus : RNode T) (f g : TFrame T) (h : focus ≠ RNode.nil) :
    ∃ s, insStep focus f g = Except.ok s := by
  match focus, h with
  | RNode.node ne nc nl nr, _ =>
      unfold insStep
      split
      · exact ⟨_, rfl⟩
      · split <;> split <;> exact ⟨_, rfl⟩

theorem insStep_inr_ne_nil {T : Type} (focus : RNode T) (f g : TFrame T) (x : RNode T)
    (h : insStep focus f g = Except.ok (Sum.inr x)) : x ≠ RNode.nil := by
  unfold insStep at h
  split at h
  · simp only [Except.ok.injEq, Sum.inr.injEq] at h
    exact h ▸ assemble_ne_nil _ _
  · split at h <;> split at h <;> first
      | (split at h <;> simp_all)
      | simp_all

theorem rebalanceInsertion_ok {T : Type} :
    ∀ (p : TPath T) (focus : RNode T), focus ≠ RNode.nil →
      ∃ out, rebalanceInsertion focus p = Except.ok out
  | [], focus, h => by
      match focus, h with
      | RNode.node e c l r, _ => exact ⟨_, rfl⟩
  | [f], focus, h => by
      by_cases hf : f.color = true <;>
        simp [rebalanceInsertion, hf]
  | f :: g :: rest2, focus, h => by
      by_cases hf : f.color = true
      · exact ⟨plug (g :: rest2) (assemble f focus), by simp [rebalanceInsertion, hf]⟩
      · obtain ⟨s, hs⟩ := insStep_ok focus f g h
        match s, hs with
        | Sum.inl sub, hs =>
            exact ⟨plug rest2 sub, by simp [rebalanceInsertion, hf, hs]⟩
        | Sum.inr nf, hs =>
            obtain ⟨out, hout⟩ :=
              rebalanceInsertion_ok rest2 nf (insStep_inr_ne_nil focus f g nf hs)
            exact ⟨out, by simp [rebalanceInsertion, hf, hs, hout]⟩

theorem insertT_ok {T : Type} (cmp : T → T → Int) (t : TreeSet T) (x : T) :
    ∃ b t2, insertT cmp t x = Except.ok (b, t2) := by
  unfold insertT
  cases hd : descend cmp x t.root [] with
  | none => exact ⟨false, t, rfl⟩
  | some p =>
      obtain ⟨out, hout⟩ := rebalanceInsertion_ok p (RNode.node x false RNode.nil RNode.nil) (by simp)
      exact ⟨true, ⟨out, t.size + 1⟩, by simp [hout, Except.map]⟩

theorem fixBlackSibling_cases {T : Type} (focus : RNode T) (f : TFrame T) :
    (∃ out, fixBlackSibling focus f = Except.ok out) ∨
      fixBlackSibling focus f = Except.error Fault.nilDeref := by
  unfold fixBlackSibling
  repeat' split
  all_goals first
    | (right; rfl)
    | (left; exact ⟨_, rfl⟩)

theorem map_cases_helper {α β : Type} (x : Except Fault α) (fn : α → β)
    (h : (∃ a, x = Except.ok a) ∨ x = Except.error Fault.nilDeref) :
    (∃ b, Except.map fn x = Except.ok b) ∨ Except.map fn x = Except.error Fault.nilDeref := by
  rcases h with ⟨a, ha⟩ | h
  · rw [ha]; simp [Except.map]
  · rw [h]; simp [Except.map]

theorem delStep_cases {T : Type} (focus : RNode T) (f : TFrame T) :
    (∃ s, delStep focus f = Except.ok s) ∨
      delStep focus f = Except.error Fault.nilDeref := by
  unfold delStep
  repeat' first
    | split
    | dsimp only
  all_goals first
    | (right; rfl)
    | (left; exact ⟨_, rfl⟩)
    | exact map_cases_helper _ _ (fixBlackSibling_cases _ _)

theorem rebalanceDeletion_no_rot {T : Type} :
    ∀ (p : TPath T) (focus : RNode T),
      rebalanceDeletion focus p ≠ Except.error Fault.rotateLeftNil ∧
        rebalanceDeletion focus p ≠ Except.error Fault.rotateRightNil
  | [], focus => by cases focus <;> exact ⟨by simp [rebalanceDeletion], by simp [rebalanceDeletion]⟩
  | f :: rest, focus => by
      rcases delStep_cases focus f with ⟨s, hs⟩ | hnil
      · match s, hs with
        | Sum.inl sub, hs => exact ⟨by simp [rebalanceDeletion, hs], by simp [rebalanceDeletion, hs]⟩
        | Sum.inr sub, hs =>
            have ih := rebalanceDeletion_no_rot rest sub
            exact ⟨by simp [rebalanceDeletion, hs]; exact ih.1,
                   by simp [rebalanceDeletion, hs]; exact ih.2⟩
      · exact ⟨by simp [rebalanceDeletion, hnil], by simp [rebalanceDeletion, hnil]⟩

theorem minGo_node_ok {T : Type} :
    ∀ (e : T) (c : Bool) (l r : RNode T), ∃ v, minGo (RNode.node e c l r) = Except.ok v
  | e, c, RNode.nil, r => ⟨(e, c), rfl⟩
  | e, c, RNode.node le lc ll lr, r => minGo_node_ok le lc ll lr

theorem maxGo_node_ok {T : Type} :
    ∀ (e : T) (c : Bool) (l r : RNode T), ∃ v, maxGo (RNode.node e c l r) = Except.ok v
  | e, c, l, RNode.nil => ⟨(e, c), rfl⟩
  | e, c, l, RNode.node re rc rl rr => maxGo_node_ok re rc rl rr

theorem finishDelete_no_rot {T : Type} (t : TreeSet T) (p : TPath T) (moved : RNode T)
    (deleted : Bool) :
    finishDelete t p moved deleted ≠ Except.error Fault.rotateLeftNil ∧
      finishDelete t p moved deleted ≠ Except.error Fault.rotateRightNil := by
  unfold finishDelete
  by_cases hd : deleted = true
  · have h := rebalanceDeletion_no_rot p moved
    rcases hrm : rebalanceDeletion moved p with e | root2
    · constructor <;> simp [hd, hrm, Except.map] <;> intro hc
      · exact absurd (hrm.trans (congrArg Except.error hc)) h.1
      · exact absurd (hrm.trans (congrArg Except.error hc)) h.2
    · constructor <;> simp [hd, hrm, Except.map]
  · constructor <;> simp [hd]

theorem bind_no_error {α β : Type} (x : Except Fault α) (k : α → Except Fault β) (e : Fault)
    (hx : x ≠ Except.error e) (hk : ∀ a, k a ≠ Except.error e) :
    (x >>= k) ≠ Except.error e := by
  cases x with
  | error f =>
      simp only [Bind.bind, Except.bind]
      intro hc
      injection hc with hfe
      exact hx (by rw [hfe])
  | ok a =>
      simp only [Bind.bind, Except.bind]
      exact hk a

theorem deleteT_no_rot {T : Type} (cmp : T → T → Int) (t : TreeSet T) (x : T) :
    deleteT cmp t x ≠ Except.error Fault.rotateLeftNil ∧
      deleteT cmp t x ≠ Except.error Fault.rotateRightNil := by
  unfold deleteT
  rcases hl : locateZ cmp x t.root [] with _ | ⟨p, e, c, l, r⟩
  · exact ⟨by simp, by simp⟩
  · match l, r with
    | RNode.node le lc ll lr, RNode.node re rc rl rr =>
        refine ⟨bind_no_error _ _ _ ?_ (fun a => by
            obtain ⟨a1, a2⟩ := a
            exact (finishDelete_no_rot t p (RNode.node le lc ll lr) a2).1),
          bind_no_error _ _ _ ?_ (fun a => by
            obtain ⟨a1, a2⟩ := a
            exact (finishDelete_no_rot t p (RNode.node le lc ll lr) a2).2)⟩ <;>
          · obtain ⟨v, hv⟩ := minGo_node_ok re rc rl rr
            simp [hv]
    | RNode.node le lc ll lr, RNode.nil =>
        exact finishDelete_no_rot t p (RNode.node le lc ll lr) c
    | RNode.nil, RNode.node re rc rl rr =>
        exact finishDelete_no_rot t p (RNode.node re rc rl rr) c
    | RNode.nil, RNode.nil =>
        exact finishDelete_no_rot t p RNode.nil c

/-- Claim C10: `rotateLeft` unconditionally dereferences the right child and
`rotateRight` the left child; at every call site inside the insertion
fixup and the deletion fixup the dereferenced child is non-nil, so for
every tree-set state, comparator and element, neither `Insert` nor
`Remove` can fault with a rotation nil dereference
(`Fault.rotateLeftNil` / `Fault.rotateRightNil`). -/
theorem claim_C10 {T : Type} (cmp : T → T → Int) (t : TreeSet T) (x : T) :
    insertT cmp t x ≠ Except.error Fault.rotateLeftNil ∧
    insertT cmp t x ≠ Except.error Fault.rotateRightNil ∧
    deleteT cmp t x ≠ Except.error Fault.rotateLeftNil ∧
    deleteT cmp t x ≠ Except.error Fault.rotateRightNil := by
  obtain ⟨b, t2, h⟩ := insertT_ok cmp t x
  have hd := deleteT_no_rot cmp t x
  exact ⟨by simp [h], by simp [h], hd.1, hd.2⟩

theorem Compare_lt {T : Type} [LinearOrder T] {x y : T} (h : x < y) : Compare x y = -1 := by
  simp [Compare, h]

theorem Compare_gt {T : Type} [LinearOrder T] {x y : T} (h : y < x) : Compare x y = 1 := by
  unfold Compare
  rw [if_neg (asymm h), if_pos h]

theorem Compare_self {T : Type} [LinearOrder T] (x : T) : Compare x x = 0 := by
  simp [Compare]

theorem Compare_eq_zero_iff {T : Type} [LinearOrder T] (x y : T) :
    Compare x y = 0 ↔ x = y := by
  unfold Compare
  split_ifs with h1 h2
  · simp [ne_of_lt h1]
  · simp [(ne_of_lt h2).symm]
  · simp [le_antisymm (not_lt.mp h2) (not_lt.mp h1)]

theorem mem_inorder_node {T : Type} (y e : T) (c : Bool) (l r : RNode T) :
    y ∈ inorder (RNode.node e c l r) ↔ y ∈ inorder l ∨ y = e ∨ y ∈ inorder r := by
  simp [inorder]

theorem allB_mem {T : Type} (p : T → Bool) :
    ∀ (t : RNode T), allB p t = true → ∀ y ∈ inorder t, p y = true := by
  intro t
  induction t with
  | nil => intro _ y hy; simp [inorder] at hy
  | node e c l r ihl ihr =>
      intro h y hy
      rw [show allB p (RNode.node e c l r) = (p e && allB p l && allB p r) from rfl] at h
      simp only [Bool.and_eq_true] at h
      rcases (mem_inorder_node y e c l r).mp hy with h1 | h1 | h1
      · exact ihl h.1.2 y h1
      · exact h1 ▸ h.1.1
      · exact ihr h.2 y h1

theorem orderedB_node {T : Type} [LinearOrder T] (e : T) (c : Bool) (l r : RNode T) :
    orderedB (RNode.node e c l r) = true ↔
      allB (fun y => decide (y < e)) l = true ∧ allB (fun y => decide (e < y)) r = true ∧
        orderedB l = true ∧ orderedB r = true := by
  rw [show orderedB (RNode.node e c l r) =
    (allB (fun y => decide (y < e)) l && allB (fun y => decide (e < y)) r &&
      orderedB l && orderedB r) from rfl]
  simp [Bool.and_eq_true, and_assoc]

theorem descend_none_iff {T : Type} [LinearOrder T] (x : T) :
    ∀ (t : RNode T), orderedB t = true → ∀ (p : TPath T),
      (descend Compare x t p = none ↔ x ∈ inorder t) := by
  intro t
  induction t with
  | nil => intro _ p; simp [descend, inorder]
  | node e c l r ihl ihr =>
      intro h p
      obtain ⟨hal, har, hol, hor⟩ := (orderedB_node e c l r).mp h
      rcases lt_trichotomy x e with hlt | heq | hgt
      · have hc := Compare_lt hlt
        have hred : descend Compare x (RNode.node e c l r) p =
            descend Compare x l (⟨Side.left, e, c, r⟩ :: p) := by
          simp [descend, hc]
        rw [hred, ihl hol _, mem_inorder_node]
        constructor
        · exact fun h1 => Or.inl h1
        · rintro (h1 | h1 | h1)
          · exact h1
          · exact absurd h1 (ne_of_lt hlt)
          · have := allB_mem _ r har x h1
            simp at this
            exact absurd hlt (asymm this)
      · subst heq
        have hc := Compare_self x
        simp [descend, hc, mem_inorder_node]
      · have hc := Compare_gt hgt
        have hred : descend Compare x (RNode.node e c l r) p =
            descend Compare x r (⟨Side.right, e, c, l⟩ :: p) := by
          simp [descend, hc]
        rw [hred, ihr hor _, mem_inorder_node]
        constructor
        · exact fun h1 => Or.inr (Or.inr h1)
        · rintro (h1 | h1 | h1)
          · have := allB_mem _ l hal x h1
            simp at this
            exact absurd hgt (asymm this)
          · exact absurd h1 (ne_of_gt hgt)
          · exact h1

/-- Claim C5: `Insert(e)` returns true exactly when no element comparing equal to
`e` is already present (for the canonical comparator, `Compare x y = 0` iff
`x = y`, see `Compare_eq_zero_iff`, so presence is membership in the
in-order element sequence), the call cannot fault, and a false result
leaves the whole state -- in particular `Size()` and the ordered element
sequence -- unchanged. -/
theorem claim_C5 {T : Type} [LinearOrder T] (t : TreeSet T) (x : T)
    (h : orderedB t.root = true) :
    ∃ b t2, insertT Compare t x = Except.ok (b, t2) ∧
      (b = true ↔ x ∉ sliceT t) ∧ (b = false → t2 = t) := by
  unfold insertT sliceT
  cases hd : descend Compare x t.root [] with
  | none =>
      refine ⟨false, t, rfl, ?_, fun _ => rfl⟩
      have hx := (descend_none_iff x t.root h []).mp hd
      simp [hx]
  | some p =>
      obtain ⟨out, hout⟩ := rebalanceInsertion_ok p (RNode.node x false RNode.nil RNode.nil) (by simp)
      refine ⟨true, ⟨out, t.size + 1⟩, by simp [hout, Except.map], ?_, by simp⟩
      have hx : ¬ (descend Compare x t.root [] = none) := by simp [hd]
      rw [descend_none_iff x t.root h []] at hx
      simp [hx]

/-- Witness for `claim_C5` on the concrete set {1, 2, 3} and `x = 2`. -/
theorem claim_C5_witness :
    orderedB (sampleT.root) = true ∧
      (∃ b t2, insertT Compare sampleT (2 : Int) = Except.ok (b, t2) ∧
        (b = true ↔ (2 : Int) ∉ sliceT sampleT) ∧ (b = false → t2 = sampleT)) :=
  ⟨by decide, claim_C5 sampleT 2 (by decide)⟩

theorem locateZ_not_mem {T : Type} [LinearOrder T] (x : T) :
    ∀ (t : RNode T), orderedB t = true → x ∉ inorder t → ∀ (p : TPath T),
      locateZ Compare x t p = none := by
  intro t
  induction t with
  | nil => intro _ _ p; rfl
  | node e c l r ihl ihr =>
      intro h hx p
      obtain ⟨hal, har, hol, hor⟩ := (orderedB_node e c l r).mp h
      rw [mem_inorder_node] at hx
      push_neg at hx
      obtain ⟨hxl, hxe, hxr⟩ := hx
      rcases lt_trichotomy x e with hlt | heq | hgt
      · -- x < e means Compare e x = 1, so the loop goes left
        have hc := Compare_gt hlt
        have hred : locateZ Compare x (RNode.node e c l r) p =
            locateZ Compare x l (⟨Side.left, e, c, r⟩ :: p) := by
          simp [locateZ, hc]
        rw [hred]
        exact ihl hol hxl _
      · exact absurd heq hxe
      · -- e < x means Compare e x = -1, so the loop goes right
        have hc := Compare_lt hgt
        have hred : locateZ Compare x (RNode.node e c l r) p =
            locateZ Compare x r (⟨Side.right, e, c, l⟩ :: p) := by
          simp [locateZ, hc]
        rw [hred]
        exact ihr hor hxr _

/-- Claim C7: for an element absent from the set (no member of the in-order
sequence compares equal to it; for the canonical comparator this is plain
non-membership, `Compare_eq_zero_iff`), `Remove` returns false ("not
modified"), does not fault, and leaves the whole state -- `Size()` and the
in-order element sequence included -- unchanged. -/
theorem claim_C7 {T : Type} [LinearOrder T] (t : TreeSet T) (x : T)
    (h : orderedB t.root = true) (hx : x ∉ sliceT t) :
    deleteT Compare t x = Except.ok (false, t) := by
  unfold deleteT
  rw [locateZ_not_mem x t.root h hx []]

/-- Witness for `claim_C7` on the concrete set {1, 2, 3} and the absent
element 4. -/
theorem claim_C7_witness :
    orderedB (sampleT.root) = true ∧ (4 : Int) ∉ sliceT sampleT ∧
      deleteT Compare sampleT (4 : Int) = Except.ok (false, sampleT) :=
  ⟨by decide, by decide, claim_C7 sampleT 4 (by decide) (by decide)⟩

theorem minGo_least {T : Type} [LinearOrder T] :
    ∀ (e : T) (c : Bool) (l r : RNode T), orderedB (RNode.node e c l r) = true →
      ∃ m mc, minGo (RNode.node e c l r) = Except.ok (m, mc) ∧
        m ∈ inorder (RNode.node e c l r) ∧
        ∀ y ∈ inorder (RNode.node e c l r), m ≤ y
  | e, c, RNode.nil, r, h => by
      obtain ⟨hal, har, hol, hor⟩ := (orderedB_node e c RNode.nil r).mp h
      refine ⟨e, c, rfl, ?_, ?_⟩
      · exact (mem_inorder_node e e c RNode.nil r).mpr (Or.inr (Or.inl rfl))
      · intro y hy
        rcases (mem_inorder_node y e c RNode.nil r).mp hy with h1 | h1 | h1
        · simp [inorder] at h1
        · exact h1 ▸ le_refl y
        · have := allB_mem _ r har y h1
          simp at this
          exact le_of_lt this
  | e, c, RNode.node le lc ll lr, r, h => by
      obtain ⟨hal, har, hol, hor⟩ := (orderedB_node e c (RNode.node le lc ll lr) r).mp h
      obtain ⟨m, mc, hm, hmem, hle⟩ := minGo_least le lc ll lr hol
      refine ⟨m, mc, hm, ?_, ?_⟩
      · exact (mem_inorder_node m e c (RNode.node le lc ll lr) r).mpr (Or.inl hmem)
      · intro y hy
        have hme := allB_mem _ _ hal m hmem
        simp at hme
        rcases (mem_inorder_node y e c (RNode.node le lc ll lr) r).mp hy with h1 | h1 | h1
        · exact hle y h1
        · exact h1 ▸ le_of_lt hme
        · have hey := allB_mem _ r har y h1
          simp at hey
          exact le_of_lt (lt_trans hme hey)

theorem maxGo_greatest {T : Type} [LinearOrder T] :
    ∀ (e : T) (c : Bool) (l r : RNode T), orderedB (RNode.node e c l r) = true →
      ∃ m mc, maxGo (RNode.node e c l r) = Except.ok (m, mc) ∧
        m ∈ inorder (RNode.node e c l r) ∧
        ∀ y ∈ inorder (RNode.node e c l r), y ≤ m
  | e, c, l, RNode.nil, h => by
      obtain ⟨hal, har, hol, hor⟩ := (orderedB_node e c l RNode.nil).mp h
      refine ⟨e, c, rfl, ?_, ?_⟩
      · exact (mem_inorder_node e e c l RNode.nil).mpr (Or.inr (Or.inl rfl))
      · intro y hy
        rcases (mem_inorder_node y e c l RNode.nil).mp hy with h1 | h1 | h1
        · have := allB_mem _ l hal y h1
          simp at this
          exact le_of_lt this
        · exact h1 ▸ le_refl y
        · simp [inorder] at h1
  | e, c, l, RNode.node re rc rl rr, h => by
      obtain ⟨hal, har, hol, hor⟩ := (orderedB_node e c l (RNode.node re rc rl rr)).mp h
      obtain ⟨m, mc, hm, hmem, hge⟩ := maxGo_greatest re rc rl rr hor
      refine ⟨m, mc, hm, ?_, ?_⟩
      · exact (mem_inorder_node m e c l (RNode.node re rc rl rr)).mpr (Or.inr (Or.inr hmem))
      · intro y hy
        have hme := allB_mem _ _ har m hmem
        simp at hme
        rcases (mem_inorder_node y e c l (RNode.node re rc rl rr)).mp hy with h1 | h1 | h1
        · have hey := allB_mem _ l hal y h1
          simp at hey
          exact le_of_lt (lt_trans hey hme)
        · exact h1 ▸ le_of_lt hme
        · exact hge y h1

/-- Claim C6: `Min` and `Max` fault -- with the EmptyCollection panic, `Fault.empty`
-- exactly when the tree has no elements (nil root, the condition the Go
code tests), and on a tree with elements they return, without any fault,
the leftmost / rightmost element, which under the search-order invariant
is the least / greatest element of the set. -/
theorem claim_C6 {T : Type} [LinearOrder T] (t : TreeSet T)
    (h : orderedB t.root = true) :
    ((∃ f, MinT t = Except.error f) ↔ t.root = RNode.nil) ∧
    ((∃ f, MaxT t = Except.error f) ↔ t.root = RNode.nil) ∧
    (t.root = RNode.nil → MinT t = Except.error Fault.empty ∧
      MaxT t = Except.error Fault.empty) ∧
    (t.root ≠ RNode.nil →
      ∃ m, MinT t = Except.ok m ∧ m ∈ sliceT t ∧ ∀ y ∈ sliceT t, m ≤ y) ∧
    (t.root ≠ RNode.nil →
      ∃ m, MaxT t = Except.ok m ∧ m ∈ sliceT t ∧ ∀ y ∈ sliceT t, y ≤ m) := by
  rcases ht : t.root with _ | ⟨e, c, l, r⟩
  · refine ⟨?_, ?_, ?_, ?_, ?_⟩
    · simp [MinT, ht]
    · simp [MaxT, ht]
    · intro _; exact ⟨by simp [MinT, ht], by simp [MaxT, ht]⟩
    · intro hc; exact absurd rfl hc
    · intro hc; exact absurd rfl hc
  · rw [ht] at h
    obtain ⟨m, mc, hm, hmem, hle⟩ := minGo_least e c l r h
    obtain ⟨M, Mc, hM, hMmem, hge⟩ := maxGo_greatest e c l r h
    refine ⟨?_, ?_, ?_, ?_, ?_⟩
    · simp [MinT, ht, hm, Except.map]
    · simp [MaxT, ht, hM, Except.map]
    · intro hc; exact absurd hc (by simp)
    · intro _
      exact ⟨m, by simp [MinT, ht, hm, Except.map], by simpa [sliceT, ht] using hmem,
        by intro y hy; exact hle y (by simpa [sliceT, ht] using hy)⟩
    · intro _
      exact ⟨M, by simp [MaxT, ht, hM, Except.map], by simpa [sliceT, ht] using hMmem,
        by intro y hy; exact hge y (by simpa [sliceT, ht] using hy)⟩

/-- Witness for `claim_C6` on the concrete set {1, 2, 3}. -/
theorem claim_C6_witness :
    orderedB (sampleT.root) = true ∧
      (((∃ f, MinT sampleT = Except.error f) ↔ sampleT.root = RNode.nil) ∧
      ((∃ f, MaxT sampleT = Except.error f) ↔ sampleT.root = RNode.nil) ∧
      (sampleT.root = RNode.nil → MinT sampleT = Except.error Fault.empty ∧
        MaxT sampleT = Except.error Fault.empty) ∧
      (sampleT.root ≠ RNode.nil →
        ∃ m, MinT sampleT = Except.ok m ∧ m ∈ sliceT sampleT ∧
          ∀ y ∈ sliceT sampleT, m ≤ y) ∧
      (sampleT.root ≠ RNode.nil →
        ∃ m, MaxT sampleT = Except.ok m ∧ m ∈ sliceT sampleT ∧
          ∀ y ∈ sliceT sampleT, y ≤ m)) :=
  ⟨by decide, claim_C6 sampleT (by decide)⟩

/-- Claim C1 (code defect at the failing input): after inserting 1, 2, 3 the
element 2 sits in the root with two non-nil children; `Remove 2` follows
the two-children path of `delete`, which copies the successor element and
then calls `delete01` on the node itself instead of the successor, so the
resulting in-order sequence is `[1]` -- the right subtree is dropped --
while the claim demands the previous sequence with exactly 2 removed,
`[1, 3]`. -/
theorem claim_C1_bug_eval :
    (runFrom (Compare : Int → Int → Int) [Op.ins 1, Op.ins 2, Op.ins 3]).map (fun t => t.root) =
      Except.ok (RNode.node 2 true (RNode.node 1 false RNode.nil RNode.nil)
        (RNode.node 3 false RNode.nil RNode.nil)) ∧
    (runFrom (Compare : Int → Int → Int) [Op.ins 1, Op.ins 2, Op.ins 3, Op.rem 2]).map sliceT =
      Except.ok [1] ∧
    (runFrom (Compare : Int → Int → Int) [Op.ins 1, Op.ins 2, Op.ins 3, Op.rem 2]).map
        (fun t => sliceT t == [1, 3]) = Except.ok false :=
  ⟨rfl, rfl, rfl⟩

/-- Claim C2 (code defect at the failing input): the red-black invariants hold
after the five inserts, but after `Remove 4` (a node with two children)
the black-height consistency fails, because `delete` splices the node
itself instead of the successor. -/
theorem claim_C2_bug_eval :
    (runFrom (Compare : Int → Int → Int) [Op.ins 2, Op.ins 1, Op.ins 4, Op.ins 3, Op.ins 5]).map
        (fun t => (blackHeight t.root).isSome && noRedRed t.root) = Except.ok true ∧
    (runFrom (Compare : Int → Int → Int) [Op.ins 2, Op.ins 1, Op.ins 4, Op.ins 3, Op.ins 5, Op.rem 4]).map
        (fun t => (blackHeight t.root).isSome && noRedRed t.root) = Except.ok false :=
  ⟨rfl, rfl⟩

/-- Claim C3 (code defect at the failing input): after inserting 1, 2, 3 and
removing 2, the in-order traversal has length 1 while `Size()` reports 2,
so the claimed invariant `Slice().length = Size()` fails on this
reachable state. -/
theorem claim_C3_bug_eval :
    (runFrom (Compare : Int → Int → Int) [Op.ins 1, Op.ins 2, Op.ins 3, Op.rem 2]).map
        (fun t => (((sliceT t).length : Int) == sizeT t, (sliceT t).length, sizeT t)) =
      Except.ok (false, 1, 2) := rfl

/-- Claim C4 (code defect at the failing input): with prior contents {1, 3}
(sequence `[1, 3]`, size 2) and the absent element 2, `Insert 2` followed
by `Remove 2` yields sequence `[1]` -- not the prior sequence -- because
the two-children branch of `delete` discards the right subtree. -/
theorem claim_C4_bug_eval :
    (runFrom (Compare : Int → Int → Int) [Op.ins 1, Op.ins 3]).map
        (fun t => (sliceT t, sizeT t, decide ((2 : Int) ∈ sliceT t))) =
      Except.ok ([1, 3], 2, false) ∧
    (runFrom (Compare : Int → Int → Int) [Op.ins 1, Op.ins 3, Op.ins 2, Op.rem 2]).map
        (fun t => (sliceT t, sizeT t)) = Except.ok ([1], 2) ∧
    (runFrom (Compare : Int → Int → Int) [Op.ins 1, Op.ins 3, Op.ins 2, Op.rem 2]).map
        (fun t => sliceT t == [1, 3]) = Except.ok false :=
  ⟨rfl, rfl, rfl⟩

/-- Claim C9 (code defect at the failing input): after inserting 1, 2, 3,
removing 2 (the two-children defect drops the subtree holding 3 while
decrementing the size only once) and removing 1, the stored size is 1 and
`Empty()` is false although the root is nil, refuting
`size = 0 iff root = nil` on reachable states. -/
theorem claim_C9_bug_eval :
    (runFrom (Compare : Int → Int → Int) [Op.ins 1, Op.ins 2, Op.ins 3, Op.rem 2, Op.rem 1]).map
        (fun t => (sizeT t, emptyT t, t.root == RNode.nil)) =
      Except.ok (1, false, true) := rfl
